import Mathlib

/-!
Verification of `scripts/bulk_populate_vectors.py` (csec-tutor repository).

This file gives a shallow embedding of the pure core of the bulk vector
population script and proves/refutes the specification claims about it.

Modelling conventions:
* Python strings are `List Char`; Python integer indices are `Int`
  (Python slice/`rfind` indices may be negative, with clamping semantics).
* Effectful boundaries (PDF reading, the embedding model, the database
  client) are passed in as parameters: `process_pdf` takes the extracted
  text, the filename metadata and the per-chunk embedding function as
  arguments; `upsert_records` takes success oracles for the batch insert
  and the single-record insert and returns the trace of insert attempts.
* The `while` loop of `chunk_text` is written with explicit fuel; the
  wrapper supplies fuel `length + 1`, and the termination claim (C10) is
  settled by proving fuel-independence under the claimed precondition.
-/

set_option maxRecDepth 10000

/-- Characters treated as whitespace by Python's `str.strip` and by `\s`
in the `re.sub(r'\s+', ' ', text)` cleaning step (ASCII fragment). -/
def isPyWs (c : Char) : Bool :=
  c = ' ' || c = '\t' || c = '\n' || c = '\r' || c = '\x0b' || c = '\x0c'

/-- Python `str.strip()`: remove leading and trailing whitespace runs
(trailing run removed by stripping the reversed list). -/
def pyStrip (l : List Char) : List Char :=
  ((l.dropWhile isPyWs).reverse.dropWhile isPyWs).reverse

/-- Scanner for `re.sub(r'\s+', ' ', text)`: `inWs` records whether the
previous character was part of a whitespace run already replaced. -/
def collapseGo (inWs : Bool) : List Char → List Char
  | [] => []
  | c :: rest =>
    if isPyWs c then
      if inWs then collapseGo true rest else ' ' :: collapseGo true rest
    else c :: collapseGo false rest

/-- `re.sub(r'\s+', ' ', text)`: replace each maximal whitespace run by a
single space. -/
def collapseWs (l : List Char) : List Char :=
  collapseGo false l

/-- The text cleaning step of `chunk_text`:
`text = re.sub(r'\s+', ' ', text).strip()`. -/
def normalizeWs (l : List Char) : List Char :=
  pyStrip (collapseWs l)

/-- Tail-recursive list length (accumulator style, for cheap reduction). -/
def lenAcc : Nat → List Char → Nat
  | n, [] => n
  | n, _ :: rest => lenAcc (n + 1) rest

/-- Length of a Python string (tail-recursive `len`). -/
def pyLen (l : List Char) : Nat :=
  lenAcc 0 l

/-- Normalize one Python slice index against a string of length `n`
(negative indices count from the end; results are clamped to `[0, n]`). -/
def pySliceIdx (n : Nat) (i : Int) : Nat :=
  if i < 0 then ((n : Int) + i).toNat else min i.toNat n

/-- Tail-recursive `List.take` (accumulator style, for cheap reduction). -/
def takeAcc (acc : List Char) : Nat → List Char → List Char
  | 0, _ => acc.reverse
  | _, [] => acc.reverse
  | n + 1, c :: rest => takeAcc (c :: acc) n rest

/-- Python slicing `t[a:b]` (step 1). -/
def pySlice (t : List Char) (a b : Int) : List Char :=
  let a' := pySliceIdx (pyLen t) a
  let b' := pySliceIdx (pyLen t) b
  takeAcc [] (b' - a') (t.drop a')

/-- Does `sub` occur in `t` starting at (non-negative) position `i`? -/
def matchAt (t sub : List Char) (i : Nat) : Bool :=
  sub.isPrefixOf (t.drop i)

/-- Scan the suffix `l = t.drop i` left to right, remembering the last
position in `[lo, hi]` where `sub` occurs; `best` is the best position
seen so far (`-1` for none).  Helper for `rfind`. -/
def rfindGo (sub : List Char) (lo hi : Nat) : Nat → List Char → Int → Int
  | _, [], best => best
  | i, c :: rest, best =>
    if hi < i then best
    else
      let best' := if lo ≤ i && sub.isPrefixOf (c :: rest) then (i : Int) else best
      rfindGo sub lo hi (i + 1) rest best'

/-- Python `t.rfind(sub, a, b)`: highest index `i` with
`a' ≤ i`, `i + len(sub) ≤ b'` and `t[i:i+len(sub)] == sub`
(`a'`, `b'` the slice-normalized bounds); `-1` when there is none. -/
def pyRfind (t sub : List Char) (a b : Int) : Int :=
  let lo := pySliceIdx (pyLen t) a
  let hi := pySliceIdx (pyLen t) b
  if hi < sub.length then -1
  else rfindGo sub lo (hi - sub.length) lo (t.drop lo) (-1)

/-- `CHUNK_SIZE = 500` (characters per chunk). -/
def CHUNK_SIZE : Int := 500

/-- `CHUNK_OVERLAP = 100` (overlap between chunks). -/
def CHUNK_OVERLAP : Int := 100

/-- `MIN_CHUNK_SIZE = 50` (skip very small chunks). -/
def MIN_CHUNK_SIZE : Nat := 50

/-- `BATCH_SIZE = 50` (upsert batch size). -/
def BATCH_SIZE : Nat := 50

/-- One iteration of the `while` loop body of `chunk_text`: compute the
window end (preferring a sentence-boundary cut found by trying the four
patterns `'. '`, `'.\n'`, `'? '`, `'!\n'` in order inside the last 100
characters of the window), and return the stripped chunk together with
the next `start` value (`end - overlap`). -/
def chunkStep (t : List Char) (cs ov : Int) (start : Int) : List Char × Int :=
  let end0 := start + cs
  let e :=
    if end0 < (pyLen t : Int) then
      let searchStart := max (end0 - 100) start
      let p1 := pyRfind t ['.', ' '] searchStart end0
      if start < p1 then p1 + 1
      else
        let p2 := pyRfind t ['.', '\n'] searchStart end0
        if start < p2 then p2 + 1
        else
          let p3 := pyRfind t ['?', ' '] searchStart end0
          if start < p3 then p3 + 1
          else
            let p4 := pyRfind t ['!', '\n'] searchStart end0
            if start < p4 then p4 + 1 else end0
    else end0
  (pyStrip (pySlice t start e), e - ov)

/-- The `while start < len(text)` loop of `chunk_text`, with explicit
fuel.  A chunk is appended when its stripped length is at least
`MIN_CHUNK_SIZE`; the loop breaks when the new start reaches the end. -/
def chunkLoop (t : List Char) (cs ov : Int) : Nat → Int → List (List Char)
  | 0, _ => []
  | fuel + 1, start =>
    if start < (pyLen t : Int) then
      let step := chunkStep t cs ov start
      let rest :=
        if (pyLen t : Int) ≤ step.2 then []
        else chunkLoop t cs ov fuel step.2
      if MIN_CHUNK_SIZE ≤ pyLen step.1 then step.1 :: rest else rest
    else []

/-- `chunk_text(text, chunk_size, overlap)`: returns `[]` for empty text
or text whose stripped length is below `MIN_CHUNK_SIZE`; otherwise cleans
the text and runs the sliding-window loop (fuel `length + 1` is enough
for the parameter range in which the Python loop terminates). -/
def chunk_text (text : List Char) (cs ov : Int) : List (List Char) :=
  if text.isEmpty || pyLen (pyStrip text) < MIN_CHUNK_SIZE then []
  else
    let t := normalizeWs text
    chunkLoop t cs ov (pyLen t + 1) 0

/-- `str.lower` for one character (ASCII fragment of Python's `lower`). -/
def toLowerC (c : Char) : Char :=
  if 'A' ≤ c && c ≤ 'Z' then Char.ofNat (c.toNat + 32) else c

/-- `str.upper` for one character (ASCII fragment). -/
def toUpperC (c : Char) : Char :=
  if 'a' ≤ c && c ≤ 'z' then Char.ofNat (c.toNat - 32) else c

/-- ASCII letter test (the cased characters relevant to `str.title`). -/
def isAsciiAlpha (c : Char) : Bool :=
  ('a' ≤ c && c ≤ 'z') || ('A' ≤ c && c ≤ 'Z')

/-- Is `needle` a contiguous substring of `hay`?  Models Python's
`needle in hay` on strings. -/
def containsSub (hay needle : List Char) : Bool :=
  match hay with
  | [] => needle.isEmpty
  | c :: rest => needle.isPrefixOf (c :: rest) || containsSub rest needle

/-- Scanner for Python `str.title()`: uppercase a letter that follows a
non-letter, lowercase a letter that follows a letter. -/
def pyTitleGo : Bool → List Char → List Char
  | _, [] => []
  | prevAlpha, c :: rest =>
    (if isAsciiAlpha c then (if prevAlpha then toLowerC c else toUpperC c) else c)
      :: pyTitleGo (isAsciiAlpha c) rest

/-- Python `str.title()` (ASCII fragment). -/
def pyTitle (l : List Char) : List Char :=
  pyTitleGo false l

/-- Python `str.replace(old, new)` for single-character arguments. -/
def replaceC (old new : Char) (l : List Char) : List Char :=
  l.map (fun c => if c = old then new else c)

/-- The `SUBJECT_ALIASES` table, in the source's insertion order (Python
dicts preserve insertion order, which the partial-match loop relies on). -/
def SUBJECT_ALIASES : List (List Char × List Char) :=
  [ ("math".toList, "Mathematics".toList),
    ("maths".toList, "Mathematics".toList),
    ("mathematics".toList, "Mathematics".toList),
    ("bio".toList, "Biology".toList),
    ("biology".toList, "Biology".toList),
    ("chem".toList, "Chemistry".toList),
    ("chemistry".toList, "Chemistry".toList),
    ("phys".toList, "Physics".toList),
    ("physics".toList, "Physics".toList),
    ("english-a".toList, "English A".toList),
    ("english-b".toList, "English B".toList),
    ("english a".toList, "English A".toList),
    ("english b".toList, "English B".toList),
    ("englisha".toList, "English A".toList),
    ("englishb".toList, "English B".toList),
    ("history".toList, "Caribbean History".toList),
    ("caribbean-history".toList, "Caribbean History".toList),
    ("caribbean history".toList, "Caribbean History".toList),
    ("economics".toList, "Economics".toList),
    ("econ".toList, "Economics".toList),
    ("geography".toList, "Geography".toList),
    ("geo".toList, "Geography".toList),
    ("pob".toList, "Principles of Business".toList),
    ("principles-of-business".toList, "Principles of Business".toList),
    ("poa".toList, "Principles of Accounts".toList),
    ("principles-of-accounts".toList, "Principles of Accounts".toList),
    ("it".toList, "Information Technology".toList),
    ("information-technology".toList, "Information Technology".toList),
    ("cs".toList, "Computer Science".toList),
    ("social-studies".toList, "Social Studies".toList),
    ("spanish".toList, "Spanish".toList),
    ("french".toList, "French".toList),
    ("integrated-science".toList, "Integrated Science".toList),
    ("agricultural-science".toList, "Agricultural Science".toList),
    ("human-and-social-biology".toList, "Human and Social Biology".toList),
    ("hsb".toList, "Human and Social Biology".toList),
    ("visual-arts".toList, "Visual Arts".toList),
    ("music".toList, "Music".toList),
    ("physical-education".toList, "Physical Education".toList),
    ("pe".toList, "Physical Education".toList),
    ("office-administration".toList, "Office Administration".toList),
    ("theatre-arts".toList, "Theatre Arts".toList),
    ("electronic-document-preparation".toList, "Electronic Document Preparation".toList),
    ("edpm".toList, "Electronic Document Preparation".toList),
    ("food-and-nutrition".toList, "Food and Nutrition".toList),
    ("home-economics".toList, "Home Economics".toList),
    ("textiles-clothing-and-fashion".toList, "Textiles Clothing and Fashion".toList),
    ("technical-drawing".toList, "Technical Drawing".toList),
    ("building-technology".toList, "Building Technology".toList),
    ("electrical-and-electronic-technology".toList,
      "Electrical and Electronic Technology".toList),
    ("mechanical-engineering-technology".toList,
      "Mechanical Engineering Technology".toList),
    ("religious-education".toList, "Religious Education".toList) ]

/-- `normalize_subject(folder_name)`: lowercase/strip/normalize the
folder name, look it up exactly in `SUBJECT_ALIASES`, then fall back to
the first alias related by substring containment, then to title-casing
the folder name. -/
def normalize_subject (folder : List Char) : List Char :=
  let key := replaceC ' ' '-' (replaceC '_' '-' (pyStrip (folder.map toLowerC)))
  match SUBJECT_ALIASES.find? (fun p => p.1 == key) with
  | some p => p.2
  | none =>
    match SUBJECT_ALIASES.find? (fun p => containsSub key p.1 || containsSub p.1 key) with
    | some p => p.2
    | none => pyTitle (replaceC '_' ' ' (replaceC '-' ' ' folder))

/-- The per-subject keyword tables of `detect_topics` (`topic_keywords`). -/
def topic_keywords (subject : String) : List (String × List String) :=
  if subject = "Mathematics" then
    [ ("algebra", ["algebra", "equation", "polynomial", "factori", "quadratic"]),
      ("geometry", ["geometry", "triangle", "circle", "angle", "polygon", "theorem"]),
      ("trigonometry", ["trigonometry", "sine", "cosine", "tangent", "pythagor"]),
      ("statistics", ["statistics", "mean", "median", "mode", "probability", "data"]),
      ("calculus", ["calculus", "differentiat", "integrat", "derivative"]),
      ("sets", ["sets", "venn diagram", "union", "intersection"]),
      ("functions", ["function", "domain", "range", "mapping"]),
      ("vectors", ["vector", "scalar", "magnitude", "direction"]),
      ("matrices", ["matrix", "matrices", "determinant"]),
      ("mensuration", ["area", "volume", "surface area", "perimeter"]) ]
  else if subject = "Biology" then
    [ ("cells", ["cell", "membrane", "nucleus", "mitochondri", "cytoplasm"]),
      ("genetics", ["gene", "dna", "chromosome", "heredit", "mutation"]),
      ("ecology", ["ecology", "ecosystem", "food chain", "habitat", "biodiversity"]),
      ("human biology", ["human body", "organ", "digest", "circulat", "respir"]),
      ("plant biology", ["photosynthesis", "plant", "chlorophyll", "transpir"]),
      ("evolution", ["evolution", "natural selection", "adaptation", "species"]) ]
  else if subject = "Chemistry" then
    [ ("atomic structure", ["atom", "electron", "proton", "neutron", "isotope"]),
      ("bonding", ["bond", "ionic", "covalent", "metallic"]),
      ("reactions", ["reaction", "equation", "product", "reactant"]),
      ("acids and bases", ["acid", "base", "ph", "neutrali"]),
      ("organic chemistry", ["organic", "hydrocarbon", "alkane", "alkene"]),
      ("electrochemistry", ["electrolysis", "electrode", "electrolyte"]) ]
  else if subject = "Physics" then
    [ ("mechanics", ["force", "motion", "velocity", "acceleration", "momentum"]),
      ("waves", ["wave", "frequency", "wavelength", "sound", "light"]),
      ("electricity", ["electric", "current", "voltage", "resistance", "circuit"]),
      ("magnetism", ["magnet", "magnetic field", "electromagnet"]),
      ("heat", ["heat", "temperature", "thermal", "conduction", "convection"]),
      ("energy", ["energy", "kinetic", "potential", "conservation"]) ]
  else []

/-- `detect_topics(text, subject)`: the topics of `subject` having some
keyword occurring (case-insensitively) in `text`, in the table's order
(the Python code collects them in a `set`; the claims below only use the
result as a set); `['General']` when none match. -/
def detect_topics (text : List Char) (subject : String) : List String :=
  let textLower := text.map toLowerC
  let matched := (topic_keywords subject).filter
    (fun tk => tk.2.any (fun kw => containsSub textLower kw.toList))
  let topics := matched.map (fun tk => tk.1)
  if topics.isEmpty then ["General"] else topics

/-- The filename-derived part of a record's metadata
(`extract_metadata_from_filename`; the regular-expression parsing runs on
the PDF filename, outside of the claims considered here, so the parsed
result is passed in as a value). -/
structure BaseMeta where
  source : String
  content_type : String
  year : Option Int
  paper : Option Int
  session : Option String

/-- A record's metadata dict:
`{**metadata, 'chunk_index': i, 'total_chunks': len(chunks)}`. -/
structure RecMeta where
  base : BaseMeta
  chunk_index : Nat
  total_chunks : Nat

/-- A content record as built by `process_pdf` (the embedding is the
vector returned by the sentence-transformer for the chunk). -/
structure ContentRecord where
  subject : String
  topic : String
  subtopic : String
  content_type : String
  content : List Char
  metadata : RecMeta
  embedding : List Float

/-- The subtopic label `f"Chunk {i + 1}"`. -/
def chunkLabel (i : Nat) : String :=
  "Chunk " ++ toString (i + 1)

/-- One record of `process_pdf`'s output (loop body of the
`for topic in topics` loop). -/
def mkRecord (subj ct : String) (m : BaseMeta) (e : List Char → List Float)
    (total : Nat) (i : Nat) (c : List Char) (tp : String) : ContentRecord :=
  { subject := subj, topic := tp, subtopic := chunkLabel i, content_type := ct,
    content := c, metadata := { base := m, chunk_index := i, total_chunks := total },
    embedding := e c }

/-- The `for i, (chunk, embedding) in enumerate(zip(chunks, embeddings))`
loop of `process_pdf`: each chunk contributes one record per topic. -/
def buildRecords (subj ct : String) (m : BaseMeta) (e : List Char → List Float)
    (total : Nat) (topics : List String) : Nat → List (List Char) → List ContentRecord
  | _, [] => []
  | i, c :: cs =>
    topics.map (mkRecord subj ct m e total i c)
      ++ buildRecords subj ct m e total topics (i + 1) cs

/-- `process_pdf`: given the extracted text (the result of
`extract_text_from_pdf`, which does file I/O), the normalized subject,
the content type, the filename metadata and the per-chunk embedding
function (`model.encode`), return the content records.  Empty text and
chunkless text produce `[]` (the skip paths). -/
def process_pdf (text : List Char) (subj ct : String) (m : BaseMeta)
    (e : List Char → List Float) : List ContentRecord :=
  if text.isEmpty then []
  else
    let topics := detect_topics text subj
    let chunks := chunk_text text CHUNK_SIZE CHUNK_OVERLAP
    if chunks.isEmpty then []
    else buildRecords subj ct m e chunks.length topics 0 chunks

/-- `try_ocr_extraction`: the OCR path, abstracted over its effects.
`depsInstalled = false` models the `ImportError` branch (missing OCR
dependencies), `failed = true` the generic exception branch; `output` is
the text OCR would produce when it works.  Both failure branches return
the empty string rather than raising. -/
def try_ocr_extraction (depsInstalled failed : Bool) (output : List Char) : List Char :=
  if depsInstalled then (if failed then [] else output) else []

/-- One observable event of `upsert_records`: a batch insert attempt with
its success, or a single-record insert attempt with its success. -/
inductive UpEvent (R : Type) where
  | batchTry : List R → Bool → UpEvent R
  | recTry : R → Bool → UpEvent R
deriving DecidableEq

/-- The `for i in range(0, len(records), BATCH_SIZE)` loop of
`upsert_records`, with explicit fuel (the wrapper supplies enough): try
the batch `records[i:i+BATCH_SIZE]`; when the batch insert fails, try
each of its records once, in order.  `okB`/`ok1` are the success oracles
of the two insert calls. -/
def upsertGo {R : Type} (okB : List R → Bool) (ok1 : R → Bool) (records : List R) :
    Nat → Nat → List (UpEvent R)
  | 0, _ => []
  | fuel + 1, i =>
    if i < records.length then
      let batch := (records.drop i).take BATCH_SIZE
      UpEvent.batchTry batch (okB batch)
        :: ((if okB batch then [] else batch.map (fun r => UpEvent.recTry r (ok1 r)))
            ++ upsertGo okB ok1 records fuel (i + BATCH_SIZE))
    else []

/-- `upsert_records(supabase, records)`: returns the trace of insert
attempts (the function's only observable behaviour; it always returns,
regardless of failures). -/
def upsert_records {R : Type} (okB : List R → Bool) (ok1 : R → Bool)
    (records : List R) : List (UpEvent R) :=
  if records.isEmpty then []
  else upsertGo okB ok1 records (records.length + 1) 0

/-- Partition a list into successive batches of `BATCH_SIZE` (the last
batch may be shorter).  Specification-side description of the uploader's
batching, compared against the index loop in the C8 theorem. -/
def batchesOf {R : Type} : Nat → List R → List (List R)
  | 0, _ => []
  | _, [] => []
  | fuel + 1, r :: rest =>
    ((r :: rest).take BATCH_SIZE) :: batchesOf fuel ((r :: rest).drop BATCH_SIZE)

/-- The batch partition of a record list (enough fuel for the whole list). -/
def batches50 {R : Type} (l : List R) : List (List R) :=
  batchesOf l.length l

/-- Specification-side window end from the claim C2's wording: the cut is
at the nearest (largest-index) occurrence of any of the four
sentence-boundary patterns inside the lookback window, whenever one lies
strictly after `start`; otherwise the fixed cut `e`. -/
def specNearestEnd (t : List Char) (start e : Int) : Int :=
  let searchStart := max (e - 100) start
  let cands := [pyRfind t ['.', ' '] searchStart e, pyRfind t ['.', '\n'] searchStart e,
                pyRfind t ['?', ' '] searchStart e, pyRfind t ['!', '\n'] searchStart e]
  let best := cands.foldr max (-1)
  if start < best then best + 1 else e

/-- Amended-specification window end: try the four patterns in the fixed
priority order `'. '`, `'.\n'`, `'? '`, `'!\n'`; for the first pattern
whose last occurrence in the lookback window lies strictly after `start`,
cut just after that occurrence; otherwise use the fixed cut. -/
def specPriorityGo (t : List Char) (start e : Int) : List (List Char) → Int
  | [] => e
  | p :: ps =>
    let idx := pyRfind t p (max (e - 100) start) e
    if start < idx then idx + 1 else specPriorityGo t start e ps

/-- Amended-specification window end over the source's pattern list. -/
def specPriorityEnd (t : List Char) (start e : Int) : Int :=
  specPriorityGo t start e [['.', ' '], ['.', '\n'], ['?', ' '], ['!', '\n']]

/-- C1 counterexample input: `"algebra "` followed by 592 `'a'`s
(600 characters; the keyword `algebra` occurs only in the first chunk). -/
def c1Text : List Char :=
  "algebra ".toList ++ List.replicate 592 'a'

/-- C2 counterexample input (560 characters): `'. '` at index 410 and
`'? '` at index 450, both inside the first window's lookback region. -/
def c2Text : List Char :=
  List.replicate 410 'a' ++ ['.', ' '] ++ List.replicate 38 'a' ++ ['?', ' ']
    ++ List.replicate 108 'a'

/-- C4 counterexample input (1200 characters, already normalized):
`'. '` at indices 400, 701 and 1002, placed so that every window is cut
early and a fourth chunk appears. -/
def c4Text : List Char :=
  List.replicate 400 'a' ++ ['.', ' '] ++ List.replicate 299 'a' ++ ['.', ' ']
    ++ List.replicate 299 'a' ++ ['.', ' '] ++ List.replicate 196 'a'

/-- A sample filename metadata value for witnesses. -/
def meta0 : BaseMeta :=
  { source := "sample.pdf", content_type := "question",
    year := none, paper := none, session := none }

/-- A sample embedding function for witnesses. -/
def embed0 : List Char → List Float :=
  fun _ => []

/-- C6 witness input: one chunk (50 characters), two matching topics. -/
def wTextC6 : List Char :=
  "algebra triangle algebra triangle algebra triangle".toList

theorem lenAcc_eq (l : List Char) : ∀ n, lenAcc n l = n + l.length := by
  induction l with
  | nil => intro n; simp [lenAcc]
  | cons c rest ih => intro n; simp [lenAcc, ih]; omega

theorem pyLen_eq (l : List Char) : pyLen l = l.length := by
  simp [pyLen, lenAcc_eq]

theorem takeAcc_eq : ∀ (n : Nat) (l acc : List Char),
    takeAcc acc n l = acc.reverse ++ l.take n := by
  intro n
  induction n with
  | zero => intro l acc; simp [takeAcc]
  | succ m ih =>
    intro l acc
    cases l with
    | nil => simp [takeAcc]
    | cons c rest => simp [takeAcc, ih]

theorem pySlice_eq (t : List Char) (a b : Int) :
    pySlice t a b
      = (t.drop (pySliceIdx t.length a)).take (pySliceIdx t.length b - pySliceIdx t.length a) := by
  simp [pySlice, takeAcc_eq, pyLen_eq]

/-- C9: chunking is deterministic — `chunk_text` is a pure function of
the text, the chunk size and the overlap, so any two runs on equal
arguments return equal chunk lists.  There is no hidden state. -/
theorem chunk_text_deterministic (t₁ t₂ : List Char) (cs₁ cs₂ ov₁ ov₂ : Int)
    (ht : t₁ = t₂) (hcs : cs₁ = cs₂) (hov : ov₁ = ov₂) :
    chunk_text t₁ cs₁ ov₁ = chunk_text t₂ cs₂ ov₂ := by
  subst ht; subst hcs; subst hov; rfl

theorem chunk_text_deterministic_witness :
    List.replicate 60 'a' = List.replicate 60 'a' ∧ (500 : Int) = 500 ∧ (100 : Int) = 100 ∧
      chunk_text (List.replicate 60 'a') 500 100 = chunk_text (List.replicate 60 'a') 500 100 :=
  ⟨rfl, rfl, rfl,
    chunk_text_deterministic (List.replicate 60 'a') (List.replicate 60 'a')
      500 500 100 100 rfl rfl rfl⟩

theorem chunkLoop_mem_min (t : List Char) (cs ov : Int) :
    ∀ (fuel : Nat) (start : Int) (c : List Char),
      c ∈ chunkLoop t cs ov fuel start → MIN_CHUNK_SIZE ≤ c.length := by
  intro fuel
  induction fuel with
  | zero => intro start c h; simp [chunkLoop] at h
  | succ n ih =>
    intro start c h
    simp only [chunkLoop, pyLen_eq] at h
    by_cases h1 : start < (t.length : Int)
    · rw [if_pos h1] at h
      by_cases h2 : MIN_CHUNK_SIZE ≤ (chunkStep t cs ov start).1.length
      · rw [if_pos h2] at h
        rcases List.mem_cons.mp h with hc | hc
        · rw [hc]; exact h2
        · by_cases h3 : (t.length : Int) ≤ (chunkStep t cs ov start).2
          · rw [if_pos h3] at hc; exact absurd hc (List.not_mem_nil c)
          · rw [if_neg h3] at hc; exact ih _ _ hc
      · rw [if_neg h2] at h
        by_cases h3 : (t.length : Int) ≤ (chunkStep t cs ov start).2
        · rw [if_pos h3] at h; exact absurd h (List.not_mem_nil c)
        · rw [if_neg h3] at h; exact ih _ _ h
    · rw [if_neg h1] at h; exact absurd h (List.not_mem_nil c)

/-- C3: every chunk in the list returned by `chunk_text` — for every
input text and every chunk-size/overlap setting — has length at least
`MIN_CHUNK_SIZE` (50); the function can return an empty list but never a
sub-minimum fragment. -/
theorem chunk_text_min_length (text : List Char) (cs ov : Int) (c : List Char)
    (h : c ∈ chunk_text text cs ov) : MIN_CHUNK_SIZE ≤ c.length := by
  unfold chunk_text at h
  by_cases hg : text.isEmpty || pyLen (pyStrip text) < MIN_CHUNK_SIZE
  · rw [if_pos hg] at h; simp at h
  · rw [if_neg hg] at h
    exact chunkLoop_mem_min _ _ _ _ _ _ h

theorem chunk_text_min_length_witness :
    List.replicate 60 'a' ∈ chunk_text (List.replicate 60 'a') 500 100 ∧
      MIN_CHUNK_SIZE ≤ (List.replicate 60 'a').length :=
  ⟨by decide, chunk_text_min_length (List.replicate 60 'a') 500 100 _ (by decide)⟩

theorem rfindGo_bounds (sub : List Char) (lo hi : Nat) :
    ∀ (l : List Char) (i : Nat) (best : Int),
      (best = -1 ∨ ((lo : Int) ≤ best ∧ best ≤ (hi : Int))) →
      (rfindGo sub lo hi i l best = -1 ∨
        ((lo : Int) ≤ rfindGo sub lo hi i l best ∧ rfindGo sub lo hi i l best ≤ (hi : Int))) := by
  intro l
  induction l with
  | nil => intro i best hb; simpa [rfindGo] using hb
  | cons c rest ih =>
    intro i best hb
    simp only [rfindGo]
    by_cases h1 : hi < i
    · rw [if_pos h1]; exact hb
    · rw [if_neg h1]
      apply ih
      by_cases h2 : (lo ≤ i && sub.isPrefixOf (c :: rest)) = true
      · rw [if_pos h2]
        simp only [Bool.and_eq_true, decide_eq_true_eq] at h2
        right
        constructor
        · exact_mod_cast h2.1
        · exact_mod_cast Nat.le_of_not_lt h1
      · rw [if_neg h2]; exact hb

theorem pySliceIdx_le (n : Nat) (i : Int) : pySliceIdx n i ≤ n := by
  unfold pySliceIdx
  by_cases h : i < 0
  · rw [if_pos h]; omega
  · rw [if_neg h]; omega

theorem pyRfind_ge (t sub : List Char) (a b : Int) (ha : 0 ≤ a)
    (hs : 0 < sub.length) (h : pyRfind t sub a b ≠ -1) :
    a ≤ pyRfind t sub a b := by
  unfold pyRfind at h ⊢
  simp only [pyLen_eq] at h ⊢
  by_cases hguard : pySliceIdx t.length b < sub.length
  · rw [if_pos hguard] at h; exact absurd rfl h
  · rw [if_neg hguard] at h ⊢
    rcases rfindGo_bounds sub (pySliceIdx t.length a) (pySliceIdx t.length b - sub.length)
        (t.drop (pySliceIdx t.length a)) (pySliceIdx t.length a) (-1) (Or.inl rfl) with
      hr | hr
    · exact absurd hr h
    · -- the result lies in `[lo, hi]`; relate `lo` back to `a`
      have hlo : pySliceIdx t.length a = min a.toNat t.length := by
        unfold pySliceIdx
        rw [if_neg (by omega)]
      by_cases hc : a.toNat ≤ t.length
      · have : (pySliceIdx t.length a : Int) = a := by
          rw [hlo]
          omega
        omega
      · -- `a` points past the end: then `lo = length > hi`, contradiction
        have hhi : pySliceIdx t.length b - sub.length < t.length := by
          have := pySliceIdx_le t.length b
          omega
        rw [hlo] at hr
        omega

theorem chunkStep_next_gt (t : List Char) (cs ov start : Int)
    (hpre : ov < cs - 100) (hs : 0 ≤ start) :
    start < (chunkStep t cs ov start).2 := by
  simp only [chunkStep]
  by_cases h0 : start + cs < (pyLen t : Int)
  · rw [if_pos h0]
    have hss0 : (0 : Int) ≤ max (start + cs - 100) start := le_trans hs (le_max_right _ _)
    have hssge : start + cs - 100 ≤ max (start + cs - 100) start := le_max_left _ _
    by_cases h1 : start < pyRfind t ['.', ' '] (max (start + cs - 100) start) (start + cs)
    · rw [if_pos h1]
      have hge := pyRfind_ge t ['.', ' '] (max (start + cs - 100) start) (start + cs)
        hss0 (by decide) (by omega)
      omega
    · rw [if_neg h1]
      by_cases h2 : start < pyRfind t ['.', '\n'] (max (start + cs - 100) start) (start + cs)
      · rw [if_pos h2]
        have hge := pyRfind_ge t ['.', '\n'] (max (start + cs - 100) start) (start + cs)
          hss0 (by decide) (by omega)
        omega
      · rw [if_neg h2]
        by_cases h3 : start < pyRfind t ['?', ' '] (max (start + cs - 100) start) (start + cs)
        · rw [if_pos h3]
          have hge := pyRfind_ge t ['?', ' '] (max (start + cs - 100) start) (start + cs)
            hss0 (by decide) (by omega)
          omega
        · rw [if_neg h3]
          by_cases h4 : start < pyRfind t ['!', '\n'] (max (start + cs - 100) start) (start + cs)
          · rw [if_pos h4]
            have hge := pyRfind_ge t ['!', '\n'] (max (start + cs - 100) start) (start + cs)
              hss0 (by decide) (by omega)
            omega
          · rw [if_neg h4]; omega
  · rw [if_neg h0]; omega

theorem chunkLoop_of_past_end (t : List Char) (cs ov : Int) (f : Nat) (start : Int)
    (h : (t.length : Int) ≤ start) : chunkLoop t cs ov f start = [] := by
  cases f with
  | zero => rfl
  | succ n =>
    simp only [chunkLoop, pyLen_eq]
    rw [if_neg (by omega)]

theorem chunkLoop_fuel_stable (t : List Char) (cs ov : Int) (hpre : ov < cs - 100) :
    ∀ (f f' : Nat) (start : Int), 0 ≤ start →
      (t.length : Int) - start ≤ f → (t.length : Int) - start ≤ f' →
      chunkLoop t cs ov f start = chunkLoop t cs ov f' start := by
  intro f
  induction f with
  | zero =>
    intro f' start hs hf hf'
    rw [chunkLoop_of_past_end t cs ov 0 start (by omega),
      chunkLoop_of_past_end t cs ov f' start (by omega)]
  | succ n ih =>
    intro f' start hs hf hf'
    by_cases hg : start < (t.length : Int)
    · have hf1 : 1 ≤ f' := by omega
      obtain ⟨m, rfl⟩ : ∃ m, f' = m + 1 := ⟨f' - 1, by omega⟩
      simp only [chunkLoop, pyLen_eq]
      rw [if_pos hg, if_pos hg]
      have hgt := chunkStep_next_gt t cs ov start hpre hs
      by_cases hend : (t.length : Int) ≤ (chunkStep t cs ov start).2
      · rw [if_pos hend, if_pos hend]
      · rw [if_neg hend, if_neg hend]
        rw [ih m (chunkStep t cs ov start).2 (by omega) (by omega) (by omega)]
    · rw [chunkLoop_of_past_end t cs ov (n + 1) start (by omega),
        chunkLoop_of_past_end t cs ov f' start (by omega)]

/-- C10: `chunk_text`'s loop terminates when the overlap is strictly
smaller than `chunk_size - 100`: under that precondition the start index
strictly increases every iteration (even when a sentence-boundary cut in
the 100-character lookback shortens the window), and consequently the
loop's value is independent of the fuel once the fuel covers the
remaining distance — the loop returns. -/
theorem chunk_text_terminating (t : List Char) (cs ov start : Int) (f f' : Nat)
    (hpre : ov < cs - 100) (hs : 0 ≤ start) :
    start < (chunkStep t cs ov start).2 ∧
      ((t.length : Int) - start ≤ f → (t.length : Int) - start ≤ f' →
        chunkLoop t cs ov f start = chunkLoop t cs ov f' start) :=
  ⟨chunkStep_next_gt t cs ov start hpre hs,
    fun hf hf' => chunkLoop_fuel_stable t cs ov hpre f f' start hs hf hf'⟩

theorem buildRecords_length (subj ct : String) (m : BaseMeta)
    (e : List Char → List Float) (total : Nat) (topics : List String) :
    ∀ (chunks : List (List Char)) (k : Nat),
      (buildRecords subj ct m e total topics k chunks).length
        = chunks.length * topics.length := by
  intro chunks
  induction chunks with
  | nil => intro k; simp [buildRecords]
  | cons c cs ih =>
    intro k
    simp [buildRecords, ih, Nat.succ_mul, Nat.add_comm]

theorem buildRecords_mem (subj ct : String) (m : BaseMeta)
    (e : List Char → List Float) (total : Nat) (topics : List String) :
    ∀ (chunks : List (List Char)) (k : Nat) (r : ContentRecord),
      r ∈ buildRecords subj ct m e total topics k chunks →
      ∃ i c tp, tp ∈ topics ∧ chunks.get? i = some c ∧
        r = mkRecord subj ct m e total (k + i) c tp := by
  intro chunks
  induction chunks with
  | nil => intro k r h; simp [buildRecords] at h
  | cons c cs ih =>
    intro k r h
    simp only [buildRecords] at h
    rcases List.mem_append.mp h with h | h
    · rcases List.mem_map.mp h with ⟨tp, htp, hr⟩
      exact ⟨0, c, tp, htp, rfl, by rw [← hr]; rfl⟩
    · rcases ih (k + 1) r h with ⟨i, c', tp, htp, hget, hr⟩
      refine ⟨i + 1, c', tp, htp, by simpa using hget, ?_⟩
      have harith : k + 1 + i = k + (i + 1) := by omega
      rw [hr, harith]

/-- C6: the records produced from a PDF's extracted text number exactly
(number of chunks) × (number of detected topics), and any two records
with the same chunk index differ only in their topic field — they share
the subject, the subtopic label, the content type, the chunk content, the
metadata and the embedding. -/
theorem process_pdf_record_counts (text : List Char) (subj ct : String)
    (m : BaseMeta) (e : List Char → List Float) :
    (process_pdf text subj ct m e).length
        = (chunk_text text CHUNK_SIZE CHUNK_OVERLAP).length
            * (detect_topics text subj).length
      ∧ (∀ (j k : Nat) (r r' : ContentRecord),
          (process_pdf text subj ct m e).get? j = some r →
          (process_pdf text subj ct m e).get? k = some r' →
          r.metadata.chunk_index = r'.metadata.chunk_index →
          r.subject = r'.subject ∧ r.subtopic = r'.subtopic
            ∧ r.content_type = r'.content_type ∧ r.content = r'.content
            ∧ r.metadata = r'.metadata ∧ r.embedding = r'.embedding) := by
  constructor
  · unfold process_pdf
    by_cases h1 : text.isEmpty
    · rw [if_pos h1]
      have : text = [] := List.isEmpty_iff.mp h1
      subst this
      simp
      exact Or.inl rfl
    · rw [if_neg h1]
      by_cases h2 : (chunk_text text CHUNK_SIZE CHUNK_OVERLAP).isEmpty
      · rw [if_pos h2]
        rw [List.isEmpty_iff.mp h2]
        simp
      · rw [if_neg h2]
        exact buildRecords_length _ _ _ _ _ _ _ 0
  · intro j k r r' hj hk hidx
    unfold process_pdf at hj hk
    by_cases h1 : text.isEmpty
    · rw [if_pos h1] at hj; simp at hj
    · rw [if_neg h1] at hj hk
      by_cases h2 : (chunk_text text CHUNK_SIZE CHUNK_OVERLAP).isEmpty
      · rw [if_pos h2] at hj; simp at hj
      · rw [if_neg h2] at hj hk
        rcases buildRecords_mem _ _ _ _ _ _ _ 0 r (List.get?_mem hj) with
          ⟨i, c, tp, _, hget, hr⟩
        rcases buildRecords_mem _ _ _ _ _ _ _ 0 r' (List.get?_mem hk) with
          ⟨i', c', tp', _, hget', hr'⟩
        have hii : i = i' := by
          rw [hr, hr'] at hidx
          simpa [mkRecord] using hidx
        subst hii
        rw [hget] at hget'
        have hcc : c = c' := Option.some.inj hget'
        subst hcc
        rw [hr, hr']
        simp [mkRecord]

theorem process_pdf_record_counts_witness :
    ((process_pdf wTextC6 "Mathematics" "question" meta0 embed0).get? 0
        = some (mkRecord "Mathematics" "question" meta0 embed0 1 0 wTextC6 "algebra")) ∧
    ((process_pdf wTextC6 "Mathematics" "question" meta0 embed0).get? 1
        = some (mkRecord "Mathematics" "question" meta0 embed0 1 0 wTextC6 "geometry")) ∧
    ((process_pdf wTextC6 "Mathematics" "question" meta0 embed0).length
        = (chunk_text wTextC6 CHUNK_SIZE CHUNK_OVERLAP).length
            * (detect_topics wTextC6 "Mathematics").length) ∧
    ((mkRecord "Mathematics" "question" meta0 embed0 1 0 wTextC6 "algebra").subject
        = (mkRecord "Mathematics" "question" meta0 embed0 1 0 wTextC6 "geometry").subject ∧
      (mkRecord "Mathematics" "question" meta0 embed0 1 0 wTextC6 "algebra").subtopic
        = (mkRecord "Mathematics" "question" meta0 embed0 1 0 wTextC6 "geometry").subtopic ∧
      (mkRecord "Mathematics" "question" meta0 embed0 1 0 wTextC6 "algebra").content_type
        = (mkRecord "Mathematics" "question" meta0 embed0 1 0 wTextC6 "geometry").content_type ∧
      (mkRecord "Mathematics" "question" meta0 embed0 1 0 wTextC6 "algebra").content
        = (mkRecord "Mathematics" "question" meta0 embed0 1 0 wTextC6 "geometry").content ∧
      (mkRecord "Mathematics" "question" meta0 embed0 1 0 wTextC6 "algebra").metadata
        = (mkRecord "Mathematics" "question" meta0 embed0 1 0 wTextC6 "geometry").metadata ∧
      (mkRecord "Mathematics" "question" meta0 embed0 1 0 wTextC6 "algebra").embedding
        = (mkRecord "Mathematics" "question" meta0 embed0 1 0 wTextC6 "geometry").embedding) :=
  ⟨by rfl, by rfl,
    (process_pdf_record_counts wTextC6 "Mathematics" "question" meta0 embed0).1,
    (process_pdf_record_counts wTextC6 "Mathematics" "question" meta0 embed0).2 0 1 _ _
      (by rfl) (by rfl) rfl⟩

/-- C7: a PDF whose text extraction yields the empty string produces an
empty record list, a PDF whose text yields no valid chunks produces an
empty record list, and missing OCR dependencies make `try_ocr_extraction`
return empty text — all without raising (every function here is total). -/
theorem process_pdf_empty_graceful :
    (∀ (subj ct : String) (m : BaseMeta) (e : List Char → List Float),
        process_pdf [] subj ct m e = [])
      ∧ (∀ (text : List Char) (subj ct : String) (m : BaseMeta)
            (e : List Char → List Float),
          chunk_text text CHUNK_SIZE CHUNK_OVERLAP = [] →
          process_pdf text subj ct m e = [])
      ∧ (∀ (failed : Bool) (output : List Char),
          try_ocr_extraction false failed output = []) := by
  refine ⟨fun subj ct m e => rfl, ?_, fun failed output => rfl⟩
  intro text subj ct m e hchunks
  unfold process_pdf
  by_cases h1 : text.isEmpty
  · rw [if_pos h1]
  · rw [if_neg h1, if_pos (by rw [hchunks]; rfl)]

theorem process_pdf_empty_graceful_witness :
    chunk_text ['a'] CHUNK_SIZE CHUNK_OVERLAP = [] ∧
      process_pdf ['a'] "Mathematics" "question" meta0 embed0 = [] :=
  ⟨by decide,
    process_pdf_empty_graceful.2.1 ['a'] "Mathematics" "question" meta0 embed0 (by decide)⟩

theorem buildRecords_filter_lt (subj ct : String) (m : BaseMeta)
    (e : List Char → List Float) (total : Nat) (topics : List String) (i : Nat) :
    ∀ (chunks : List (List Char)) (k : Nat), i < k →
      ((buildRecords subj ct m e total topics k chunks).filter
          (fun r => r.metadata.chunk_index == i)) = [] := by
  intro chunks
  induction chunks with
  | nil => intro k _; rfl
  | cons c cs ih =>
    intro k hk
    simp only [buildRecords, List.filter_append]
    rw [ih (k + 1) (by omega)]
    rw [List.filter_map]
    have : List.filter ((fun r => r.metadata.chunk_index == i)
        ∘ mkRecord subj ct m e total k c) topics = [] := by
      apply List.filter_eq_nil_iff.mpr
      intro tp _
      simp [mkRecord]
      omega
    rw [this]
    simp

theorem buildRecords_filter_eq (subj ct : String) (m : BaseMeta)
    (e : List Char → List Float) (total : Nat) (topics : List String) (i : Nat) :
    ∀ (chunks : List (List Char)) (k : Nat), k ≤ i → i - k < chunks.length →
      ((buildRecords subj ct m e total topics k chunks).filter
          (fun r => r.metadata.chunk_index == i))
        = topics.map (mkRecord subj ct m e total i (chunks.getD (i - k) [])) := by
  intro chunks
  induction chunks with
  | nil => intro k _ h; simp at h
  | cons c cs ih =>
    intro k hk hlt
    simp only [buildRecords, List.filter_append]
    by_cases hki : k = i
    · subst hki
      rw [buildRecords_filter_lt subj ct m e total topics k cs (k + 1) (by omega)]
      rw [List.filter_map]
      have : List.filter ((fun r => r.metadata.chunk_index == k)
          ∘ mkRecord subj ct m e total k c) topics = topics := by
        apply List.filter_eq_self.mpr
        intro tp _
        simp [mkRecord]
      rw [this]
      simp
    · have hklt : k < i := by omega
      rw [List.filter_map]
      have : List.filter ((fun r => r.metadata.chunk_index == i)
          ∘ mkRecord subj ct m e total k c) topics = [] := by
        apply List.filter_eq_nil_iff.mpr
        intro tp _
        simp [mkRecord]
        omega
      rw [this]
      have harith : i - (k + 1) < cs.length := by
        simp at hlt
        omega
      rw [ih (k + 1) (by omega) harith]
      have hgetD : (c :: cs).getD (i - k) [] = cs.getD (i - (k + 1)) [] := by
        have : i - k = (i - (k + 1)) + 1 := by omega
        rw [this]
        rfl
      rw [hgetD]
      simp

/-- C1 (amended): the topic labels attached to a chunk's records are
computed once from the whole document's extracted text — every chunk of a
PDF carries the same topic set, the set `detect_topics` returns for the
full text (with the `'General'` default), not a per-chunk set. -/
theorem process_pdf_topics_per_document (text : List Char) (subj ct : String)
    (m : BaseMeta) (e : List Char → List Float) (i : Nat)
    (hi : i < (chunk_text text CHUNK_SIZE CHUNK_OVERLAP).length) :
    ((process_pdf text subj ct m e).filter
        (fun r => r.metadata.chunk_index == i)).map (fun r => r.topic)
      = detect_topics text subj := by
  unfold process_pdf
  by_cases h1 : text.isEmpty
  · exfalso
    have : text = [] := List.isEmpty_iff.mp h1
    subst this
    simp [chunk_text] at hi
  · rw [if_neg h1]
    by_cases h2 : (chunk_text text CHUNK_SIZE CHUNK_OVERLAP).isEmpty
    · exfalso
      rw [List.isEmpty_iff.mp h2] at hi
      simp at hi
    · rw [if_neg h2]
      rw [buildRecords_filter_eq _ _ _ _ _ _ _ _ 0 (by omega) (by omega)]
      rw [List.map_map]
      have : (fun r => ContentRecord.topic r)
          ∘ mkRecord subj ct m e (chunk_text text CHUNK_SIZE CHUNK_OVERLAP).length i
            ((chunk_text text CHUNK_SIZE CHUNK_OVERLAP).getD (i - 0) []) = id := by
        funext tp
        rfl
      rw [this, List.map_id]

theorem process_pdf_topics_per_document_witness :
    1 < (chunk_text c1Text CHUNK_SIZE CHUNK_OVERLAP).length ∧
      ((process_pdf c1Text "Mathematics" "question" meta0 embed0).filter
          (fun r => r.metadata.chunk_index == 1)).map (fun r => r.topic)
        = detect_topics c1Text "Mathematics" :=
  ⟨by decide,
    process_pdf_topics_per_document c1Text "Mathematics" "question" meta0 embed0 1 (by decide)⟩

/-- C1 counterexample: in `c1Text` the keyword `algebra` occurs only in
the first chunk; the record built for the second chunk (whose content is
200 `'a'`s, matching no keyword) still carries the topic `algebra`, while
the topic set computed from that chunk's own text is `['General']` — so
topic tagging is a function of the whole document's text, not of the
individual chunk's text. -/
theorem c1_chunk_topics_counterexample :
    ((process_pdf c1Text "Mathematics" "question" meta0 embed0).get? 1).map
        (fun r => (r.topic, r.subtopic, r.content))
      = some ("algebra", "Chunk 2", List.replicate 200 'a') ∧
      detect_topics (List.replicate 200 'a') "Mathematics" = ["General"] ∧
      ("algebra" : String) ≠ "General" :=
  ⟨by decide, by decide, by decide⟩

theorem batchesOf_stable {R : Type} :
    ∀ (f f' : Nat) (l : List R), l.length ≤ f → l.length ≤ f' →
      batchesOf f l = batchesOf f' l := by
  intro f
  induction f with
  | zero =>
    intro f' l h h'
    have hl : l = [] := List.eq_nil_of_length_eq_zero (by omega)
    subst hl
    cases f' <;> rfl
  | succ n ih =>
    intro f' l h h'
    cases l with
    | nil => cases f' <;> rfl
    | cons r rest =>
      obtain ⟨m, rfl⟩ : ∃ m, f' = m + 1 := ⟨f' - 1, by simp at h'; omega⟩
      simp only [batchesOf]
      congr 1
      apply ih
      · simp [BATCH_SIZE] at h ⊢; omega
      · simp [BATCH_SIZE] at h' ⊢; omega

theorem batchesOf_join {R : Type} :
    ∀ (n : Nat) (l : List R), l.length ≤ n → (batchesOf n l).flatten = l := by
  intro n
  induction n with
  | zero =>
    intro l h
    have hl : l = [] := List.eq_nil_of_length_eq_zero (by omega)
    subst hl
    rfl
  | succ m ih =>
    intro l h
    cases l with
    | nil => rfl
    | cons r rest =>
      simp only [batchesOf, List.flatten_cons]
      rw [ih _ (by simp [BATCH_SIZE] at h ⊢; omega)]
      exact List.take_append_drop BATCH_SIZE (r :: rest)

theorem batchesOf_sizes {R : Type} :
    ∀ (n : Nat) (l : List R), l.length ≤ n →
      ∀ b ∈ batchesOf n l, b ≠ [] ∧ b.length ≤ BATCH_SIZE := by
  intro n
  induction n with
  | zero =>
    intro l h b hb
    have hl : l = [] := List.eq_nil_of_length_eq_zero (by omega)
    subst hl
    simp [batchesOf] at hb
  | succ m ih =>
    intro l h b hb
    cases l with
    | nil => simp [batchesOf] at hb
    | cons r rest =>
      simp only [batchesOf] at hb
      rcases List.mem_cons.mp hb with hb | hb
      · subst hb
        constructor
        · show (r :: rest).take BATCH_SIZE ≠ []
          simp [BATCH_SIZE]
        · simp [List.length_take]
      · exact ih _ (by simp [BATCH_SIZE] at h ⊢; omega) b hb

theorem batchesOf_full {R : Type} :
    ∀ (n : Nat) (l : List R), l.length ≤ n →
      ∀ b ∈ (batchesOf n l).dropLast, b.length = BATCH_SIZE := by
  intro n
  induction n with
  | zero =>
    intro l h b hb
    have hl : l = [] := List.eq_nil_of_length_eq_zero (by omega)
    subst hl
    simp [batchesOf] at hb
  | succ m ih =>
    intro l h b hb
    cases l with
    | nil => simp [batchesOf] at hb
    | cons r rest =>
      simp only [batchesOf] at hb
      cases hrest : batchesOf m ((r :: rest).drop BATCH_SIZE) with
      | nil => rw [hrest] at hb; simp at hb
      | cons b0 bs =>
        rw [hrest] at hb
        rcases List.mem_cons.mp (by simpa [List.dropLast] using hb) with hb' | hb'
        · subst hb'
          have hlen : BATCH_SIZE ≤ (r :: rest).length := by
            by_contra hcon
            have hdrop : (r :: rest).drop BATCH_SIZE = [] := by
              apply List.drop_eq_nil_of_le
              omega
            rw [hdrop] at hrest
            cases m <;> simp [batchesOf] at hrest
          rw [List.length_take]
          exact Nat.min_eq_left hlen
        · rw [← hrest] at hb'
          refine ih _ ?_ b hb'
          have hB : 1 ≤ BATCH_SIZE := by decide
          simp at h ⊢
          omega

theorem upsertGo_eq {R : Type} (okB : List R → Bool) (ok1 : R → Bool)
    (records : List R) :
    ∀ (fuel : Nat) (i : Nat), records.length - i ≤ fuel →
      upsertGo okB ok1 records fuel i
        = (batches50 (records.drop i)).flatMap
            (fun b => UpEvent.batchTry b (okB b)
              :: (if okB b then [] else b.map (fun r => UpEvent.recTry r (ok1 r)))) := by
  intro fuel
  induction fuel with
  | zero =>
    intro i h
    have hdrop : records.drop i = [] := List.drop_eq_nil_of_le (by omega)
    rw [hdrop]
    rfl
  | succ n ih =>
    intro i h
    by_cases hi : i < records.length
    · simp only [upsertGo]
      rw [if_pos hi]
      have hne : records.drop i ≠ [] := by
        simp [List.drop_eq_nil_iff]
        omega
      cases hd : records.drop i with
      | nil => exact absurd hd hne
      | cons r rest =>
        have hb50 : batches50 (r :: rest)
            = (r :: rest).take BATCH_SIZE :: batches50 ((r :: rest).drop BATCH_SIZE) := by
          show batchesOf (r :: rest).length (r :: rest) = _
          obtain ⟨m, hm⟩ : ∃ m, (r :: rest).length = m + 1 := ⟨rest.length, by simp⟩
          rw [hm]
          simp only [batchesOf]
          congr 1
          apply batchesOf_stable
          · have hB : 1 ≤ BATCH_SIZE := by decide
            simp at hm ⊢
            omega
          · exact le_rfl
        rw [hb50]
        simp only [List.flatMap_cons, List.cons_append]
        congr 1
        congr 1
        have hB : 1 ≤ BATCH_SIZE := by decide
        rw [ih (i + BATCH_SIZE) (by omega)]
        have hdd : records.drop (i + BATCH_SIZE) = (r :: rest).drop BATCH_SIZE := by
          rw [← hd, List.drop_drop]
        rw [hdd]
    · simp only [upsertGo]
      rw [if_neg hi]
      have hdrop : records.drop i = [] := List.drop_eq_nil_of_le (by omega)
      rw [hdrop]
      rfl

/-- C8: the uploader submits the records in successive batches of
`BATCH_SIZE = 50` (the batches partition the record list in order; all
but the last are full); when a batch insert fails, it makes exactly one
single-record insert attempt for each record of that batch, in order; a
record whose single insert also fails is only reported (its `recTry`
event carries `false`) and dropped; and no failure stops later batches —
the trace always covers every batch and the function returns. -/
theorem upsert_records_batching {R : Type} (okB : List R → Bool) (ok1 : R → Bool)
    (records : List R) :
    upsert_records okB ok1 records
        = (batches50 records).flatMap
            (fun b => UpEvent.batchTry b (okB b)
              :: (if okB b then [] else b.map (fun r => UpEvent.recTry r (ok1 r))))
      ∧ (batches50 records).flatten = records
      ∧ (∀ b ∈ batches50 records, b ≠ [] ∧ b.length ≤ BATCH_SIZE)
      ∧ (∀ b ∈ (batches50 records).dropLast, b.length = BATCH_SIZE) := by
  refine ⟨?_, batchesOf_join records.length records le_rfl,
    batchesOf_sizes records.length records le_rfl,
    batchesOf_full records.length records le_rfl⟩
  unfold upsert_records
  by_cases h : records.isEmpty
  · rw [if_pos h]
    rw [List.isEmpty_iff.mp h]
    rfl
  · rw [if_neg h]
    rw [upsertGo_eq okB ok1 records (records.length + 1) 0 (by omega)]
    rw [List.drop_zero]

theorem upsert_records_batching_witness :
    ((List.range 120).take 50 ∈ batches50 (List.range 120)) ∧
      ((List.range 120).take 50 ≠ [] ∧ ((List.range 120).take 50).length ≤ BATCH_SIZE) ∧
      (batches50 (List.range 120)).flatten = List.range 120 :=
  ⟨by decide,
    (upsert_records_batching (fun b => b.length == 50) (fun r => r % 2 == 0)
        (List.range 120)).2.2.1 _ (by decide),
    (upsert_records_batching (fun b => b.length == 50) (fun r => r % 2 == 0)
        (List.range 120)).2.1⟩

theorem pyTitleGo_length : ∀ (l : List Char) (b : Bool),
    (pyTitleGo b l).length = l.length := by
  intro l
  induction l with
  | nil => intro b; rfl
  | cons c rest ih => intro b; simp [pyTitleGo, ih]

theorem replaceC_length (old new : Char) (l : List Char) :
    (replaceC old new l).length = l.length := by
  simp [replaceC]

/-- C5: `normalize_subject` is total (it is a Lean function) and maps
every input string — including the empty string and all-separator
strings — to a non-empty canonical subject name, via exact alias lookup,
then substring-containment fallback, then title-casing. -/
theorem normalize_subject_nonempty (folder : List Char) :
    0 < (normalize_subject folder).length := by
  unfold normalize_subject
  set key := replaceC ' ' '-' (replaceC '_' '-' (pyStrip (folder.map toLowerC))) with hkey
  have hvals : ∀ q ∈ SUBJECT_ALIASES, 0 < q.2.length := by decide
  cases h1 : SUBJECT_ALIASES.find? (fun p => p.1 == key) with
  | some p =>
    simp only [h1]
    exact hvals p (List.mem_of_find?_eq_some h1)
  | none =>
    simp only [h1]
    cases h2 : SUBJECT_ALIASES.find? (fun p => containsSub key p.1 || containsSub p.1 key) with
    | some p =>
      simp only [h2]
      exact hvals p (List.mem_of_find?_eq_some h2)
    | none =>
      simp only [h2]
      have hfol : folder ≠ [] := by
        intro hnil
        rw [hkey] at h2
        subst hnil
        exact absurd h2 (by decide)
      rw [pyTitle, pyTitleGo_length, replaceC_length, replaceC_length]
      exact List.length_pos.mpr hfol

/-- C2 (amended): when a chunk's window end falls strictly inside the
text, the chunker ends the chunk according to the fixed priority order of
the four boundary patterns — it cuts just after the last occurrence (in
the 100-character lookback window, strictly after the chunk start) of the
first pattern in the list `'. '`, `'.\n'`, `'? '`, `'!\n'` that has such
an occurrence, and uses the fixed-size cut only when no pattern has one.
This is not always the nearest (largest-index) boundary overall. -/
theorem chunkStep_priority_cut (t : List Char) (cs ov start : Int)
    (h : start + cs < (t.length : Int)) :
    chunkStep t cs ov start
      = (pyStrip (pySlice t start (specPriorityEnd t start (start + cs))),
        specPriorityEnd t start (start + cs) - ov) := by
  simp only [chunkStep, specPriorityEnd, specPriorityGo, pyLen_eq]
  rw [if_pos h]

theorem chunkStep_priority_cut_witness :
    (0 : Int) + 500 < (c2Text.length : Int) ∧
      chunkStep c2Text 500 100 0
        = (pyStrip (pySlice c2Text 0 (specPriorityEnd c2Text 0 (0 + 500))),
          specPriorityEnd c2Text 0 (0 + 500) - 100) :=
  ⟨by decide, chunkStep_priority_cut c2Text 500 100 0 (by decide)⟩

/-- C2 counterexample: on `c2Text` the lookback window of the first chunk
contains `'. '` at index 410 and `'? '` at index 450; the nearest
(largest-index) sentence-terminal punctuation cut would end the window at
451, but the code ends it at 411 (the `'. '` pattern is tried first), as
both the loop step and the first emitted chunk show. -/
theorem c2_nearest_cut_counterexample :
    (500 : Int) < (c2Text.length : Int) ∧
      specNearestEnd c2Text 0 500 = 451 ∧
      (chunkStep c2Text 500 100 0).2 + 100 = 411 ∧
      ((chunk_text c2Text 500 100).head?).map List.length = some 411 ∧
      (411 : Int) ≠ 451 :=
  ⟨by decide, by decide, by decide, by decide, by decide⟩

theorem chunk_text_terminating_witness :
    (100 : Int) < 500 - 100 ∧ (0 : Int) ≤ 0 ∧
      (0 < (chunkStep (List.replicate 60 'a') 500 100 0).2 ∧
        (((List.replicate 60 'a').length : Int) - 0 ≤ 61 →
          ((List.replicate 60 'a').length : Int) - 0 ≤ 100 →
          chunkLoop (List.replicate 60 'a') 500 100 61 0
            = chunkLoop (List.replicate 60 'a') 500 100 100 0)) :=
  ⟨by decide, by decide,
    chunk_text_terminating (List.replicate 60 'a') 500 100 0 61 100 (by decide) (by decide)⟩

/-- No two adjacent whitespace characters — the shape of the output of
the whitespace-collapsing step. -/
def NoAdjWs (l : List Char) : Prop :=
  l.Chain' (fun a b => ¬(isPyWs a = true ∧ isPyWs b = true))

theorem NoAdjWs_reverse (l : List Char) (h : NoAdjWs l) : NoAdjWs l.reverse := by
  unfold NoAdjWs at h ⊢
  rw [List.chain'_reverse]
  exact h.imp (fun a b hab => by tauto)

theorem dropWhile_head_not (p : Char → Bool) :
    ∀ (l : List Char) (c : Char) (l' : List Char),
      l.dropWhile p = c :: l' → p c = false := by
  intro l
  induction l with
  | nil => intro c l' h; simp at h
  | cons a rest ih =>
    intro c l' h
    rw [List.dropWhile_cons] at h
    by_cases ha : p a = true
    · rw [if_pos ha] at h; exact ih c l' h
    · rw [if_neg ha] at h
      have hac : a = c := (List.cons.injEq a rest c l').mp h |>.1
      subst hac
      cases hpa : p a with
      | false => rfl
      | true => exact absurd hpa ha

theorem head?_dropWhile_not (p : Char → Bool) (l : List Char) (c : Char)
    (h : (l.dropWhile p).head? = some c) : p c = false := by
  cases hd : l.dropWhile p with
  | nil => rw [hd] at h; simp at h
  | cons a rest =>
    rw [hd] at h
    simp at h
    subst h
    exact dropWhile_head_not p l a rest hd

theorem dropWhile_eq_self_of_head (l : List Char)
    (h : ∀ c, l.head? = some c → isPyWs c = false) :
    l.dropWhile isPyWs = l := by
  cases l with
  | nil => rfl
  | cons a rest =>
    rw [List.dropWhile_cons, if_neg]
    simp [h a rfl]

theorem dropWhile_ws_length_ge (l : List Char) (h : NoAdjWs l) :
    l.length - 1 ≤ (l.dropWhile isPyWs).length := by
  cases l with
  | nil => simp
  | cons a rest =>
    rw [List.dropWhile_cons]
    by_cases ha : isPyWs a = true
    · rw [if_pos ha]
      cases rest with
      | nil => simp
      | cons b rest' =>
        have hpair : ¬(isPyWs a = true ∧ isPyWs b = true) := (List.chain'_cons.mp h).1
        have hb : isPyWs b = false := by
          cases hwb : isPyWs b with
          | false => rfl
          | true => exact absurd ⟨ha, hwb⟩ hpair
        rw [List.dropWhile_cons, if_neg (by simp [hb])]
        simp
    · rw [if_neg ha]; simp

theorem pyStrip_length_ge (l : List Char) (h : NoAdjWs l) :
    l.length - 2 ≤ (pyStrip l).length := by
  unfold pyStrip
  have h1 : NoAdjWs (l.dropWhile isPyWs) := h.suffix (List.dropWhile_suffix _)
  have b1 := dropWhile_ws_length_ge l h
  have h2 : NoAdjWs (l.dropWhile isPyWs).reverse := NoAdjWs_reverse _ h1
  have b2 := dropWhile_ws_length_ge _ h2
  simp only [List.length_reverse] at b2 ⊢
  omega

theorem collapseGo_facts : ∀ (l : List Char),
    (∀ (c : Char) (l' : List Char), collapseGo true l = c :: l' → isPyWs c = false) ∧
      (∀ b, NoAdjWs (collapseGo b l)) := by
  intro l
  induction l with
  | nil =>
    refine ⟨?_, ?_⟩
    · intro c l' h; simp [collapseGo] at h
    · intro b; simp [collapseGo, NoAdjWs]
  | cons a rest ih =>
    refine ⟨?_, ?_⟩
    · intro c l' h
      by_cases ha : isPyWs a = true
      · rw [show collapseGo true (a :: rest) = collapseGo true rest by
            simp [collapseGo, ha]] at h
        exact ih.1 c l' h
      · rw [show collapseGo true (a :: rest) = a :: collapseGo false rest by
            simp [collapseGo, ha]] at h
        have hac : a = c := (List.cons.injEq _ _ _ _).mp h |>.1
        subst hac
        cases hpa : isPyWs a with
        | false => rfl
        | true => exact absurd hpa ha
    · intro b
      by_cases ha : isPyWs a = true
      · cases b with
        | true =>
          rw [show collapseGo true (a :: rest) = collapseGo true rest by
              simp [collapseGo, ha]]
          exact ih.2 true
        | false =>
          rw [show collapseGo false (a :: rest) = ' ' :: collapseGo true rest by
              simp [collapseGo, ha]]
          refine List.chain'_cons'.mpr ⟨?_, ih.2 true⟩
          intro y hy
          cases hgo : collapseGo true rest with
          | nil => rw [hgo] at hy; simp at hy
          | cons c l' =>
            rw [hgo] at hy
            have hyc : c = y := by simpa using hy
            subst hyc
            have hc := ih.1 c l' hgo
            intro hcon
            rw [hc] at hcon
            exact absurd hcon.2 (by simp)
      · rw [show collapseGo b (a :: rest) = a :: collapseGo false rest by
            simp [collapseGo, ha]]
        refine List.chain'_cons'.mpr ⟨?_, ih.2 false⟩
        intro y hy hcon
        exact absurd hcon.1 ha

theorem dropWhile_ws_idem (l : List Char) :
    (l.dropWhile isPyWs).dropWhile isPyWs = l.dropWhile isPyWs := by
  apply dropWhile_eq_self_of_head
  intro c hc
  exact head?_dropWhile_not isPyWs l c hc

theorem pyStrip_idem (l : List Char) : pyStrip (pyStrip l) = pyStrip l := by
  show pyStrip (((l.dropWhile isPyWs).reverse.dropWhile isPyWs).reverse) = _
  have hs1 : (((l.dropWhile isPyWs).reverse.dropWhile isPyWs).reverse).dropWhile isPyWs
      = ((l.dropWhile isPyWs).reverse.dropWhile isPyWs).reverse := by
    apply dropWhile_eq_self_of_head
    intro c hc
    rw [List.head?_reverse] at hc
    have hvne : (l.dropWhile isPyWs).reverse.dropWhile isPyWs ≠ [] := by
      intro hnil
      rw [hnil] at hc
      simp at hc
    obtain ⟨w, hw⟩ := List.dropWhile_suffix (l := (l.dropWhile isPyWs).reverse) isPyWs
    have hlast : ((l.dropWhile isPyWs).reverse.dropWhile isPyWs).getLast?
        = (l.dropWhile isPyWs).reverse.getLast? := by
      conv_rhs => rw [← hw]
      exact (List.getLast?_append_of_ne_nil w hvne).symm
    rw [hlast, List.getLast?_reverse] at hc
    exact head?_dropWhile_not isPyWs l c hc
  unfold pyStrip
  rw [hs1, List.reverse_reverse, dropWhile_ws_idem]

theorem normalized_pyStrip_eq (t : List Char) (hn : normalizeWs t = t) :
    pyStrip t = t :=
  calc pyStrip t = pyStrip (normalizeWs t) := by rw [hn]
    _ = normalizeWs t := pyStrip_idem _
    _ = t := hn

theorem normalized_NoAdjWs (t : List Char) (hn : normalizeWs t = t) :
    NoAdjWs t := by
  rw [← hn]
  have h0 : NoAdjWs (collapseWs t) := (collapseGo_facts t).2 false
  show NoAdjWs (pyStrip (collapseWs t))
  unfold pyStrip
  exact NoAdjWs_reverse _
    ((NoAdjWs_reverse _ (h0.suffix (List.dropWhile_suffix _))).suffix
      (List.dropWhile_suffix _))

theorem rfindGo_no_match (t sub : List Char) (h : ∀ i, matchAt t sub i = false)
    (lo hi : Nat) :
    ∀ (l : List Char) (k : Nat) (best : Int), t.drop k = l →
      rfindGo sub lo hi k l best = best := by
  intro l
  induction l with
  | nil => intro k best _; rfl
  | cons c rest ih =>
    intro k best hk
    simp only [rfindGo]
    by_cases h1 : hi < k
    · rw [if_pos h1]
    · rw [if_neg h1]
      have hm : sub.isPrefixOf (c :: rest) = false := by
        have hmk := h k
        unfold matchAt at hmk
        rw [hk] at hmk
        exact hmk
      rw [hm]
      simp only [Bool.and_false, Bool.false_eq_true, if_false]
      refine ih (k + 1) best ?_
      rw [← List.tail_drop, hk]
      rfl

theorem pyRfind_no_match (t sub : List Char) (h : ∀ i, matchAt t sub i = false)
    (a b : Int) : pyRfind t sub a b = -1 := by
  simp only [pyRfind]
  by_cases hg : pySliceIdx (pyLen t) b < sub.length
  · rw [if_pos hg]
  · rw [if_neg hg]
    exact rfindGo_no_match t sub h _ _ _ _ (-1) rfl

theorem chunkStep_no_match (t : List Char) (cs ov start : Int) (hs : 0 ≤ start)
    (h1 : ∀ i, matchAt t ['.', ' '] i = false)
    (h2 : ∀ i, matchAt t ['.', '\n'] i = false)
    (h3 : ∀ i, matchAt t ['?', ' '] i = false)
    (h4 : ∀ i, matchAt t ['!', '\n'] i = false) :
    chunkStep t cs ov start
      = (pyStrip (pySlice t start (start + cs)), start + cs - ov) := by
  simp only [chunkStep]
  by_cases h0 : start + cs < (pyLen t : Int)
  · rw [if_pos h0, pyRfind_no_match t _ h1, pyRfind_no_match t _ h2,
      pyRfind_no_match t _ h3, pyRfind_no_match t _ h4,
      if_neg (by omega), if_neg (by omega), if_neg (by omega), if_neg (by omega)]
  · rw [if_neg h0]

theorem chunkLoop_succ_emit (t : List Char) (cs ov : Int) (f : Nat) (start : Int)
    (hg : start < (t.length : Int))
    (hmin : MIN_CHUNK_SIZE ≤ (chunkStep t cs ov start).1.length) :
    chunkLoop t cs ov (f + 1) start
      = (chunkStep t cs ov start).1
        :: (if (t.length : Int) ≤ (chunkStep t cs ov start).2 then []
            else chunkLoop t cs ov f (chunkStep t cs ov start).2) := by
  simp only [chunkLoop, pyLen_eq]
  rw [if_pos hg, if_pos hmin]

/-- C4 (amended): for every input text that is 1200 characters long after
whitespace normalization and contains no occurrence of any of the four
sentence-boundary patterns, `chunk_text` with chunk size 500 and overlap
100 produces exactly 3 chunks, the stripped slices `[0, 500)`,
`[400, 900)` and `[800, 1300)` — consecutive windows overlapping by
exactly the configured 100 characters.  (Without the no-boundary
condition the count can differ; see the counterexample.) -/
theorem chunk_text_1200_three_chunks (t : List Char)
    (hn : normalizeWs t = t) (hlen : t.length = 1200)
    (h1 : ∀ i, matchAt t ['.', ' '] i = false)
    (h2 : ∀ i, matchAt t ['.', '\n'] i = false)
    (h3 : ∀ i, matchAt t ['?', ' '] i = false)
    (h4 : ∀ i, matchAt t ['!', '\n'] i = false) :
    chunk_text t 500 100
        = [pyStrip (pySlice t 0 500), pyStrip (pySlice t 400 900),
          pyStrip (pySlice t 800 1300)]
      ∧ (chunk_text t 500 100).length = 3 := by
  have hstrip : pyStrip t = t := normalized_pyStrip_eq t hn
  have hadj : NoAdjWs t := normalized_NoAdjWs t hn
  have hne : ¬(t.isEmpty = true) := by
    rw [List.isEmpty_iff]
    intro hnil
    rw [hnil] at hlen
    simp at hlen
  -- index arithmetic for the three slices
  have hidx : ∀ i : Int, 0 ≤ i → i ≤ 1300 →
      pySliceIdx t.length i = min i.toNat 1200 := by
    intro i hi0 _
    unfold pySliceIdx
    rw [if_neg (by omega), hlen]
  have hslice : ∀ (a b : Int), 0 ≤ a → a ≤ b → b ≤ 1300 →
      (pySlice t a b).length = min b.toNat 1200 - min a.toNat 1200 := by
    intro a b ha hab hb
    rw [pySlice_eq, hidx a ha (by omega), hidx b (by omega) hb]
    simp [hlen]
  have hchunk_min : ∀ (a b : Int), 0 ≤ a → a ≤ b → b ≤ 1300 →
      a + 2 + MIN_CHUNK_SIZE ≤ b → a + 2 + MIN_CHUNK_SIZE ≤ 1200 →
      MIN_CHUNK_SIZE ≤ (pyStrip (pySlice t a b)).length := by
    intro a b ha hab hb hk1 hk2
    have hadj' : NoAdjWs (pySlice t a b) := by
      rw [pySlice_eq]
      exact (hadj.drop _).take _
    have hlow := pyStrip_length_ge _ hadj'
    have hsl := hslice a b ha hab hb
    rw [hsl] at hlow
    have hM : MIN_CHUNK_SIZE = 50 := rfl
    omega
  -- the three loop steps
  have hstep0 : chunkStep t 500 100 0 = (pyStrip (pySlice t 0 500), 400) := by
    rw [chunkStep_no_match t 500 100 0 (by omega) h1 h2 h3 h4]
    norm_num
  have hstep1 : chunkStep t 500 100 400 = (pyStrip (pySlice t 400 900), 800) := by
    rw [chunkStep_no_match t 500 100 400 (by omega) h1 h2 h3 h4]
    norm_num
  have hstep2 : chunkStep t 500 100 800 = (pyStrip (pySlice t 800 1300), 1200) := by
    rw [chunkStep_no_match t 500 100 800 (by omega) h1 h2 h3 h4]
    norm_num
  have hmin0 : MIN_CHUNK_SIZE ≤ (chunkStep t 500 100 0).1.length := by
    rw [hstep0]
    exact hchunk_min 0 500 (by omega) (by omega) (by omega)
      (by have hM : MIN_CHUNK_SIZE = 50 := rfl; omega)
      (by have hM : MIN_CHUNK_SIZE = 50 := rfl; omega)
  have hmin1 : MIN_CHUNK_SIZE ≤ (chunkStep t 500 100 400).1.length := by
    rw [hstep1]
    exact hchunk_min 400 900 (by omega) (by omega) (by omega)
      (by have hM : MIN_CHUNK_SIZE = 50 := rfl; omega)
      (by have hM : MIN_CHUNK_SIZE = 50 := rfl; omega)
  have hmin2 : MIN_CHUNK_SIZE ≤ (chunkStep t 500 100 800).1.length := by
    rw [hstep2]
    exact hchunk_min 800 1300 (by omega) (by omega) (by omega)
      (by have hM : MIN_CHUNK_SIZE = 50 := rfl; omega)
      (by have hM : MIN_CHUNK_SIZE = 50 := rfl; omega)
  have hmain : chunk_text t 500 100
      = [pyStrip (pySlice t 0 500), pyStrip (pySlice t 400 900),
        pyStrip (pySlice t 800 1300)] := by
    simp only [chunk_text]
    rw [if_neg (by
      simp only [Bool.or_eq_true, not_or]
      refine ⟨hne, ?_⟩
      rw [pyLen_eq, hstrip, hlen]
      norm_num [MIN_CHUNK_SIZE])]
    rw [hn, pyLen_eq, hlen]
    rw [chunkLoop_succ_emit t 500 100 1200 0 (by rw [hlen]; decide) hmin0]
    rw [hstep0]
    dsimp only
    rw [if_neg (by rw [hlen]; decide)]
    rw [show (1200 : Nat) = 1199 + 1 from rfl]
    rw [chunkLoop_succ_emit t 500 100 1199 400 (by rw [hlen]; decide) hmin1]
    rw [hstep1]
    dsimp only
    rw [if_neg (by rw [hlen]; decide)]
    rw [show (1199 : Nat) = 1198 + 1 from rfl]
    rw [chunkLoop_succ_emit t 500 100 1198 800 (by rw [hlen]; decide) hmin2]
    rw [hstep2]
    dsimp only
    rw [if_pos (by rw [hlen]; decide)]
  exact ⟨hmain, by rw [hmain]; rfl⟩

/-- C4 counterexample: `c4Text` is 1200 characters long after whitespace
normalization, yet `chunk_text` with chunk size 500 / overlap 100
produces 4 chunks, not 3 — the sentence-boundary cuts at indices 400,
701 and 1002 shift every window back far enough that a fourth window
fits. -/
theorem c4_three_chunks_counterexample :
    (normalizeWs c4Text).length = 1200 ∧
      (chunk_text c4Text 500 100).length = 4 ∧ (4 : Nat) ≠ 3 :=
  ⟨by decide, by decide, by decide⟩

theorem collapseWs_replicate_a (n : Nat) :
    collapseWs (List.replicate n 'a') = List.replicate n 'a' := by
  show collapseGo false (List.replicate n 'a') = List.replicate n 'a'
  induction n with
  | zero => rfl
  | succ m ih =>
    rw [List.replicate_succ]
    show collapseGo false ('a' :: List.replicate m 'a') = _
    rw [show collapseGo false ('a' :: List.replicate m 'a')
        = 'a' :: collapseGo false (List.replicate m 'a') by simp [collapseGo, isPyWs]]
    rw [ih]

theorem pyStrip_replicate_a (n : Nat) :
    pyStrip (List.replicate n 'a') = List.replicate n 'a' := by
  unfold pyStrip
  have hd : ∀ m : Nat, (List.replicate m 'a').dropWhile isPyWs = List.replicate m 'a' := by
    intro m
    cases m with
    | zero => rfl
    | succ k =>
      rw [List.replicate_succ, List.dropWhile_cons, if_neg (by simp [isPyWs])]
  rw [hd, List.reverse_replicate, hd, List.reverse_replicate]

theorem normalizeWs_replicate_a (n : Nat) :
    normalizeWs (List.replicate n 'a') = List.replicate n 'a' := by
  rw [normalizeWs, collapseWs_replicate_a, pyStrip_replicate_a]

theorem matchAt_replicate_a_ne (d : Char) (ds : List Char) (hne : (d == 'a') = false) :
    ∀ (n i : Nat), matchAt (List.replicate n 'a') (d :: ds) i = false := by
  intro n i
  unfold matchAt
  rw [List.drop_replicate]
  cases h : n - i with
  | zero => rfl
  | succ m =>
    rw [List.replicate_succ]
    show (d :: ds).isPrefixOf ('a' :: List.replicate m 'a') = false
    simp [List.isPrefixOf]
    intro hcon
    rw [hcon] at hne
    simp at hne

theorem chunk_text_1200_three_chunks_witness :
    normalizeWs (List.replicate 1200 'a') = List.replicate 1200 'a' ∧
      (List.replicate 1200 'a').length = 1200 ∧
      (chunk_text (List.replicate 1200 'a') 500 100
          = [pyStrip (pySlice (List.replicate 1200 'a') 0 500),
            pyStrip (pySlice (List.replicate 1200 'a') 400 900),
            pyStrip (pySlice (List.replicate 1200 'a') 800 1300)]
        ∧ (chunk_text (List.replicate 1200 'a') 500 100).length = 3) :=
  ⟨normalizeWs_replicate_a 1200, by simp,
    chunk_text_1200_three_chunks (List.replicate 1200 'a')
      (normalizeWs_replicate_a 1200) (by simp)
      (matchAt_replicate_a_ne '.' [' '] (by decide) 1200)
      (matchAt_replicate_a_ne '.' ['\n'] (by decide) 1200)
      (matchAt_replicate_a_ne '?' [' '] (by decide) 1200)
      (matchAt_replicate_a_ne '!' ['\n'] (by decide) 1200)⟩
